import Mathlib

/-!
Verification of `partition.py` (district-enumeration).

The file shallowly embeds the three functions of the source module:
`calc_limits`, `all_partitions` and `accrete`.  Node identifiers are
natural numbers, node weights are rationals, and a graph is a finite
node set together with a boolean adjacency function and a weight
function.  Neighbour sets are iterated in ascending order of node id,
matching CPython set iteration for small integer keys.

The embedding keeps the source's statefulness explicit:

* `accrete` mutates its local `subgraph_weight` and `ignore` across the
  iterations of its neighbour loop (the recursive calls receive fresh
  copies `ignore | {nbr}`); the loop is therefore modelled by
  `accreteStep`, which threads the running weight and ignore set.
* recursion is modelled with a fuel parameter; `none` marks either fuel
  exhaustion or a raised Python exception (`ZeroDivisionError` in
  `calc_limits` is modelled with an explicit error value; the
  `ValueError` raised by `max([])` when `all_partitions` receives an
  empty graph is modelled by `none`).
-/

structure Graph where
  nodes : Finset ℕ
  adj : ℕ → ℕ → Bool
  weight : ℕ → ℚ

/-- Build a graph from a node set, an (undirected) edge list and a weight
function, as `networkx.Graph` does from `add_nodes_from`/`add_edges_from`. -/
def mkGraph (ns : Finset ℕ) (es : List (ℕ × ℕ)) (w : ℕ → ℚ) : Graph :=
  { nodes := ns
    adj := fun a b => es.any (fun e => (e.1 == a && e.2 == b) || (e.1 == b && e.2 == a))
    weight := w }

/-- Symmetry of the adjacency relation (undirected graph). -/
def GraphSymm (g : Graph) : Prop := ∀ a b, g.adj a b = g.adj b a

/-- `sum(weights)` over `graph.nodes(data='weight')`. -/
def totalWeight (g : Graph) : ℚ := ((g.nodes.sort (· ≤ ·)).map g.weight).sum

/-- The weight of a candidate subgraph: the sum of the weights of exactly
its nodes. -/
def subgraphWeight (g : Graph) (s : Finset ℕ) : ℚ := s.sum g.weight

inductive PyErr where
  | zeroDivision
deriving DecidableEq

/-- `calc_limits(graph, num_parts, max_ratio)`.  The source performs no
validation: the only possible failure is Python's `ZeroDivisionError`,
raised when `num_parts = 0` (computing the average) or when the ratio is
`0` (computing `min_weight`). -/
def calcLimits (g : Graph) (np : ℤ) (mr : ℚ) : Except PyErr (ℚ × ℚ) :=
  if np = 0 then .error .zeroDivision
  else
    if mr = 0 then .error .zeroDivision
    else
      .ok (totalWeight g / (np : ℚ) / mr, totalWeight g / (np : ℚ) * mr)

/-- The neighbour list of `accrete`:
`⋃ {set(graph[n]) | n ∈ subgraph} - ignore`, iterated in ascending
order. -/
def nbrFrontier (g : Graph) (sub ign : Finset ℕ) : List ℕ :=
  (g.nodes.filter (fun m => m ∉ ign ∧ ∃ n ∈ sub, g.adj n m = true)).sort (· ≤ ·)

/-- The neighbour loop of `accrete`.  `c` is the recursive call (with one
unit of fuel consumed).  The running weight `w` is threaded through the
whole loop exactly as the source's `subgraph_weight +=` does (it is never
reset between iterations), and the heavy branch inserts the neighbour
into the loop's own ignore set, which later iterations observe. -/
def accreteStep (c : Finset ℕ → ℚ → Finset ℕ → Option (List (Finset ℕ)))
    (g : Graph) (sub : Finset ℕ) (lims : ℚ × ℚ) :
    List ℕ → ℚ → Finset ℕ → Option (List (Finset ℕ))
  | [], _, _ => some []
  | nbr :: rest, w, ign =>
    if lims.2 < w + g.weight nbr then
      accreteStep c g sub lims rest (w + g.weight nbr) (insert nbr ign)
    else
      match c (insert nbr sub) (w + g.weight nbr) (insert nbr ign),
            accreteStep c g sub lims rest (w + g.weight nbr) ign with
      | some cs, some rs =>
          some ((if lims.1 ≤ w + g.weight nbr then [insert nbr sub] else []) ++ cs ++ rs)
      | _, _ => none

/-- Fueled `accrete(graph, subgraph, subgraph_weight, ignore, limits)`. -/
def accreteF (g : Graph) (lims : ℚ × ℚ) :
    ℕ → Finset ℕ → ℚ → Finset ℕ → Option (List (Finset ℕ))
  | 0, _, _, _ => none
  | fuel + 1, sub, w, ign =>
    accreteStep (fun sub2 w2 ign2 => accreteF g lims fuel sub2 w2 ign2) g sub lims
      (nbrFrontier g sub ign) w ign

/-- `accrete`, run with enough fuel (one more than the number of
not-yet-ignored nodes, which bounds the recursion depth). -/
def accrete (g : Graph) (sub : Finset ℕ) (w : ℚ) (ign : Finset ℕ) (lims : ℚ × ℚ) :
    List (Finset ℕ) :=
  (accreteF g lims ((g.nodes \ ign).card + 1) sub w ign).getD []

/-- Python's `max` on a nonempty list (`max(weights)`); the `[]` case is
unreachable in guarded uses. -/
def listMax : List ℚ → ℚ
  | [] => 0
  | x :: xs => xs.foldl max x

def maxWeight (g : Graph) : ℚ := listMax ((g.nodes.sort (· ≤ ·)).map g.weight)

/-- `weights.index(highest_weight)` followed by the node lookup: the first
node, in node order, attaining the maximum weight. -/
def heaviestNode (g : Graph) : ℕ :=
  ((g.nodes.sort (· ≤ ·)).find? (fun n => decide (g.weight n = maxWeight g))).getD 0

/-- `remainder = graph.copy(); remainder.remove_nodes_from(subgraph)`. -/
def removeNodes (g : Graph) (s : Finset ℕ) : Graph := { g with nodes := g.nodes \ s }

/-- The subgraph loop of `all_partitions`; `c` is the recursive call. -/
def partStep (c : Graph → Option (List (List (Finset ℕ)))) (g : Graph) :
    List (Finset ℕ) → Option (List (List (Finset ℕ)))
  | [] => some []
  | s :: rest =>
    if (removeNodes g s).nodes = ∅ then
      match partStep c g rest with
      | some r => some ([s] :: r)
      | none => none
    else
      match c (removeNodes g s), partStep c g rest with
      | some subs, some r => some (subs.map (fun p => p ++ [s]) ++ r)
      | _, _ => none

/-- Fueled `all_partitions(graph, limits)`.  On an empty graph the source
raises `ValueError` (from `max([])`): modelled by `none`. -/
def allPartitionsF (lims : ℚ × ℚ) : ℕ → Graph → Option (List (List (Finset ℕ)))
  | 0, _ => none
  | fuel + 1, g =>
    if g.nodes = ∅ then none
    else
      partStep (fun g2 => allPartitionsF lims fuel g2) g
        (accrete g {heaviestNode g} (g.weight (heaviestNode g)) {heaviestNode g} lims)

/-- `all_partitions`, run with enough fuel (each level removes at least
one node from the graph). -/
def allPartitions (g : Graph) (lims : ℚ × ℚ) : Option (List (List (Finset ℕ))) :=
  allPartitionsF lims (g.nodes.card + 1) g

/-- Connectivity of the subgraph induced by `s`: any two nodes of `s` are
joined by a path staying inside `s` and using graph edges. -/
def Conn (adj : ℕ → ℕ → Bool) (s : Finset ℕ) : Prop :=
  ∀ a ∈ s, ∀ b ∈ s,
    Relation.ReflTransGen (fun x y => x ∈ s ∧ y ∈ s ∧ adj x y = true) a b

/-- The set of nodes covered by a partition. -/
def unionParts (p : List (Finset ℕ)) : Finset ℕ := p.foldr (· ∪ ·) ∅

/-- A single node of weight `1`. -/
def G0 : Graph := mkGraph {0} [] (fun _ => 1)

/-- Four nodes of weights `5, 4, 1/2, 3` with edges `0-1, 0-2, 1-3`. -/
def G1 : Graph := mkGraph {0, 1, 2, 3} [(0, 1), (0, 2), (1, 3)]
  (fun n => if n = 0 then 5 else if n = 1 then 4 else if n = 2 then 1/2 else 3)

/-- Two nodes of weight `1` joined by an edge. -/
def G2 : Graph := mkGraph {0, 1} [(0, 1)] (fun _ => 1)

/-- Three nodes of weights `1, 5, 5` with edges `0-1, 0-2`. -/
def G3 : Graph := mkGraph {0, 1, 2} [(0, 1), (0, 2)] (fun n => if n = 0 then 1 else 5)

/-- The empty graph. -/
def Gempty : Graph := mkGraph ∅ [] (fun _ => 0)

/-!
### Helper lemmas
-/

theorem optEqSome {α : Type} (o : Option α) (d x : α) (h1 : o.isSome = true)
    (h2 : o.getD d = x) : o = some x := by
  cases o with
  | none => simp at h1
  | some v => simpa using h2

/-!
### Limit calculator
-/

/-- Claim C6, amended.  `calc_limits` performs no validation at all and
no `InvalidParameterError` exists in the source: for every graph (empty
included) and all `num_parts ≠ 0`, `max_ratio ≠ 0` — in particular for
negative `num_parts` and for `max_ratio < 1` — it returns the limits pair
without error; it fails only with Python's `ZeroDivisionError`, exactly
when `num_parts = 0` or `max_ratio = 0`. -/
theorem calcLimitsNoChecks (g : Graph) (np : ℤ) (mr : ℚ) :
    (np ≠ 0 → mr ≠ 0 → calcLimits g np mr =
      .ok (totalWeight g / (np : ℚ) / mr, totalWeight g / (np : ℚ) * mr))
    ∧ (np = 0 ∨ mr = 0 → calcLimits g np mr = .error PyErr.zeroDivision) := by
  constructor
  · intro h1 h2
    simp [calcLimits, h1, h2]
  · rintro (h | h) <;> by_cases hnp : np = 0 <;> simp [calcLimits, h, hnp]

/-- Claim C8, amended.  For a graph with non-negative node weights,
`num_parts ≥ 1` and `max_ratio ≥ 1`, the returned pair
satisfies `min_weight ≤ total_weight/num_parts ≤ max_weight` and
`min_weight * max_ratio² = max_weight` (the square, not the first power,
and exactly in exact rational arithmetic). -/
theorem calcLimits_band (g : Graph) (np : ℤ) (mr : ℚ) (mn mx : ℚ)
    (hw : ∀ n ∈ g.nodes, 0 ≤ g.weight n) (hnp : 1 ≤ np) (hmr : 1 ≤ mr)
    (h : calcLimits g np mr = .ok (mn, mx)) :
    mn ≤ totalWeight g / (np : ℚ) ∧ totalWeight g / (np : ℚ) ≤ mx ∧ mn * mr ^ 2 = mx := by
  have hnp0 : np ≠ 0 := by omega
  have hmr0 : mr ≠ 0 := by
    intro hc
    rw [hc] at hmr
    exact absurd hmr (by norm_num)
  rw [calcLimits, if_neg hnp0, if_neg hmr0] at h
  have hpair : (totalWeight g / (np : ℚ) / mr, totalWeight g / (np : ℚ) * mr) = (mn, mx) := by
    injection h
  obtain ⟨h1, h2⟩ := Prod.mk.injEq _ _ _ _ ▸ hpair
  have htot : 0 ≤ totalWeight g := by
    apply List.sum_nonneg
    intro x hx
    obtain ⟨n, hn, rfl⟩ := List.mem_map.mp hx
    exact hw n ((Finset.mem_sort _).mp hn)
  have hnpq : (0 : ℚ) < (np : ℚ) := by exact_mod_cast lt_of_lt_of_le one_pos hnp
  have havg : 0 ≤ totalWeight g / (np : ℚ) := div_nonneg htot (le_of_lt hnpq)
  refine ⟨h1 ▸ div_le_self havg hmr, h2 ▸ le_mul_of_one_le_right havg hmr, ?_⟩
  rw [← h1, ← h2]
  field_simp
  ring

/-- Claim C7, amended.  `all_partitions` has no zero-node base case: on a
graph with zero nodes it fails for every limits pair (`max([])` raises
`ValueError`).  The empty-graph situation is instead handled by the
caller's loop, which records a one-part partition when removing a
subgraph empties the remainder, so the recursion never reaches an empty
graph. -/
theorem allPartitionsEmptyNone (g : Graph) (h : g.nodes = ∅) (lims : ℚ × ℚ) :
    allPartitions g lims = none := by
  simp [allPartitions, allPartitionsF, h]

/-!
### Claim theorems: evaluations at concrete inputs
-/

/-- Claim C1, code-bug evidence.  On the four-node graph `G1` with limits
`(6, 100)`, `all_partitions` returns a partition containing the subgraph
`{0, 2}` whose weight `11/2` is below `min_weight = 6`: `accrete` tested
`{0, 2}` against the running loop weight `5 + 4 + 1/2` (which still
includes the weight of neighbour `1`, tried earlier in the same loop and
not a member of the candidate), not against the candidate's own weight. -/
theorem allPartitionsWeightBug :
    (allPartitions G1 (6, 100)).getD [] =
      [[{0, 1, 2, 3}], [{0, 1, 2, 3}], [{1, 3}, {0, 2}], [{0, 1, 2, 3}]]
    ∧ [{1, 3}, {0, 2}] ∈ (allPartitions G1 (6, 100)).getD []
    ∧ subgraphWeight G1 {0, 2} = 11 / 2
    ∧ ¬ (6 : ℚ) ≤ subgraphWeight G1 {0, 2} := by
  with_unfolding_all decide

/-- Claim C2, code-bug evidence.  `accrete` does not return the set of all
weight-valid connected supersets of the seed once per superset: on `G1`
it returns the under-weight subgraph `{0, 2}` (weight `11/2 < 6`) and
returns `{0, 1, 2, 3}` three times; on `G3` with limits `(0, 6)` it fails
to return the weight-valid connected superset `{0, 2}` (weight exactly
`6`, joined by the edge `0-2`) because the running loop weight already
contained the weight of the previously tried neighbour `1`. -/
theorem accreteEnumBug :
    accrete G1 {0} 5 {0} (6, 100) =
      [{0, 1}, {0, 1, 2}, {0, 1, 2, 3}, {0, 1, 3}, {0, 1, 2, 3}, {0, 2}, {0, 1, 2},
        {0, 1, 2, 3}]
    ∧ ({0, 2} : Finset ℕ) ∈ accrete G1 {0} 5 {0} (6, 100)
    ∧ subgraphWeight G1 {0, 2} < 6
    ∧ List.count ({0, 1, 2, 3} : Finset ℕ) (accrete G1 {0} 5 {0} (6, 100)) = 3
    ∧ ({0, 2} : Finset ℕ) ∉ accrete G3 {0} 1 {0} (0, 6)
    ∧ subgraphWeight G3 {0, 2} = 6
    ∧ G3.adj 0 2 = true := by
  with_unfolding_all decide

/-- Claim C3, code-bug evidence.  On a single-node graph with
`num_parts = 1` and `max_ratio = 1` the limits are `(1, 1)` and the sole
node's weight `1` lies within them, yet the enumerator returns zero
partitions (`accrete` never emits the bare seed, so no candidate district
containing the node is ever produced). -/
theorem singleNodeNoPartition :
    calcLimits G0 1 1 = .ok (1, 1)
    ∧ (allPartitions G0 (1, 1)).getD [[{0}]] = [] := by
  refine ⟨by with_unfolding_all rfl, by with_unfolding_all decide⟩

/-- Claim C6, counterexample.  `calc_limits` raises nothing for
`num_parts = -2` (≤ 0) and nothing for an empty graph, returning ordinary
values in both cases, where the claim demands an `InvalidParameterError`
failure. -/
theorem calcLimitsNoValidation :
    calcLimits G0 (-2) 2 = .ok (-(1 / 4), -1)
    ∧ calcLimits Gempty 3 (3 / 2) = .ok (0, 0) := by
  refine ⟨by with_unfolding_all rfl, by with_unfolding_all rfl⟩

/-- Claim C7, counterexample.  `all_partitions` on the empty graph does
not return the one-element list holding the empty partition: it fails
(`max([])` raises `ValueError`, modelled by `none`). -/
theorem allPartitionsEmptyCounterexample :
    allPartitions Gempty (0, 1) = none ∧ allPartitions Gempty (0, 1) ≠ some [[]] := by
  have h : allPartitions Gempty (0, 1) = none := by
    simp [allPartitions, allPartitionsF, Gempty, mkGraph]
  exact ⟨h, by simp [h]⟩

/-- Claim C8, counterexample.  For the single-node graph of weight `1`,
`num_parts = 1` and `max_ratio = 2`, `calc_limits` returns
`(min, max) = (1/2, 2)`, and `min * max_ratio = 1 ≠ 2 = max`: the claimed
identity `min_weight * max_ratio == max_weight` fails (the code satisfies
`min * max_ratio² = max` instead). -/
theorem calcLimitsRatioCounterexample :
    calcLimits G0 1 2 = .ok (1 / 2, 2) ∧ ¬ ((1 / 2 : ℚ) * 2 = 2) := by
  refine ⟨by with_unfolding_all rfl, by norm_num⟩

/-!
### Accretion search: termination
-/

theorem nbrFrontier_mem (g : Graph) (sub ign : Finset ℕ) (x : ℕ)
    (hx : x ∈ nbrFrontier g sub ign) :
    x ∈ g.nodes ∧ x ∉ ign ∧ ∃ n ∈ sub, g.adj n x = true := by
  rw [nbrFrontier, Finset.mem_sort, Finset.mem_filter] at hx
  exact ⟨hx.1, hx.2.1, hx.2.2⟩

theorem nbrFrontier_nodup (g : Graph) (sub ign : Finset ℕ) :
    (nbrFrontier g sub ign).Nodup :=
  Finset.sort_nodup _ _

theorem card_sdiff_insert_lt (g : Graph) (ign : Finset ℕ) (nbr : ℕ)
    (h1 : nbr ∈ g.nodes) (h2 : nbr ∉ ign) :
    (g.nodes \ insert nbr ign).card < (g.nodes \ ign).card := by
  rw [Finset.sdiff_insert]
  exact Finset.card_erase_lt_of_mem (Finset.mem_sdiff.mpr ⟨h1, h2⟩)

theorem accreteStep_congr (g : Graph) (lims : ℚ × ℚ)
    (c1 c2 : Finset ℕ → ℚ → Finset ℕ → Option (List (Finset ℕ))) (sub : Finset ℕ) (N : ℕ)
    (hc : ∀ sub2 w2 ign2, (g.nodes \ ign2).card < N → c1 sub2 w2 ign2 = c2 sub2 w2 ign2) :
    ∀ (l : List ℕ) (w : ℚ) (ign : Finset ℕ), l.Nodup →
      (∀ x ∈ l, x ∈ g.nodes ∧ x ∉ ign) → (g.nodes \ ign).card ≤ N →
      accreteStep c1 g sub lims l w ign = accreteStep c2 g sub lims l w ign := by
  intro l
  induction l with
  | nil => intro w ign _ _ _; rfl
  | cons nbr rest ih =>
    intro w ign hnd hmem hcard
    obtain ⟨hnb, hrest⟩ := List.nodup_cons.mp hnd
    have hnbr := hmem nbr (List.mem_cons_self _ _)
    have hcard2 : (g.nodes \ insert nbr ign).card < (g.nodes \ ign).card :=
      card_sdiff_insert_lt g ign nbr hnbr.1 hnbr.2
    simp only [accreteStep]
    by_cases hw : lims.2 < w + g.weight nbr
    · simp only [if_pos hw]
      refine ih (w + g.weight nbr) (insert nbr ign) hrest ?_ (le_trans (le_of_lt hcard2) hcard)
      intro x hx
      refine ⟨(hmem x (List.mem_cons_of_mem _ hx)).1, ?_⟩
      intro hmem2
      rcases Finset.mem_insert.mp hmem2 with h | h
      · exact hnb (h ▸ hx)
      · exact (hmem x (List.mem_cons_of_mem _ hx)).2 h
    · simp only [if_neg hw]
      rw [hc _ _ _ (lt_of_lt_of_le hcard2 hcard)]
      rw [ih (w + g.weight nbr) ign hrest (fun x hx => hmem x (List.mem_cons_of_mem _ hx)) hcard]

theorem accreteStep_isSome (g : Graph) (lims : ℚ × ℚ)
    (c : Finset ℕ → ℚ → Finset ℕ → Option (List (Finset ℕ))) (sub : Finset ℕ) (N : ℕ)
    (hc : ∀ sub2 w2 ign2, (g.nodes \ ign2).card < N → (c sub2 w2 ign2).isSome = true) :
    ∀ (l : List ℕ) (w : ℚ) (ign : Finset ℕ), l.Nodup →
      (∀ x ∈ l, x ∈ g.nodes ∧ x ∉ ign) → (g.nodes \ ign).card ≤ N →
      (accreteStep c g sub lims l w ign).isSome = true := by
  intro l
  induction l with
  | nil => intro w ign _ _ _; rfl
  | cons nbr rest ih =>
    intro w ign hnd hmem hcard
    obtain ⟨hnb, hrest⟩ := List.nodup_cons.mp hnd
    have hnbr := hmem nbr (List.mem_cons_self _ _)
    have hcard2 : (g.nodes \ insert nbr ign).card < (g.nodes \ ign).card :=
      card_sdiff_insert_lt g ign nbr hnbr.1 hnbr.2
    simp only [accreteStep]
    by_cases hw : lims.2 < w + g.weight nbr
    · simp only [if_pos hw]
      refine ih (w + g.weight nbr) (insert nbr ign) hrest ?_ (le_trans (le_of_lt hcard2) hcard)
      intro x hx
      refine ⟨(hmem x (List.mem_cons_of_mem _ hx)).1, ?_⟩
      intro hmem2
      rcases Finset.mem_insert.mp hmem2 with h | h
      · exact hnb (h ▸ hx)
      · exact (hmem x (List.mem_cons_of_mem _ hx)).2 h
    · simp only [if_neg hw]
      obtain ⟨cs, hcs⟩ := Option.isSome_iff_exists.mp (hc _ _ _ (lt_of_lt_of_le hcard2 hcard))
      obtain ⟨rs, hrs⟩ := Option.isSome_iff_exists.mp
        (ih (w + g.weight nbr) ign hrest (fun x hx => hmem x (List.mem_cons_of_mem _ hx)) hcard)
      rw [hcs, hrs]
      rfl

theorem accreteF_irrel (g : Graph) (lims : ℚ × ℚ) :
    ∀ N f1 f2, N < f1 → N < f2 → ∀ sub w ign, (g.nodes \ ign).card ≤ N →
      accreteF g lims f1 sub w ign = accreteF g lims f2 sub w ign := by
  intro N
  induction N using Nat.strong_induction_on with
  | _ N ihN =>
    intro f1 f2 h1 h2 sub w ign hcard
    cases f1 with
    | zero => omega
    | succ a =>
      cases f2 with
      | zero => omega
      | succ b =>
        simp only [accreteF]
        refine accreteStep_congr g lims _ _ sub N ?_ _ w ign
          (nbrFrontier_nodup g sub ign)
          (fun x hx => ⟨(nbrFrontier_mem g sub ign x hx).1, (nbrFrontier_mem g sub ign x hx).2.1⟩)
          hcard
        intro sub2 w2 ign2 hlt
        exact ihN _ hlt a b (by omega) (by omega) sub2 w2 ign2 le_rfl

theorem accreteF_someOf (g : Graph) (lims : ℚ × ℚ) :
    ∀ N f, N < f → ∀ sub w ign, (g.nodes \ ign).card ≤ N →
      (accreteF g lims f sub w ign).isSome = true := by
  intro N
  induction N using Nat.strong_induction_on with
  | _ N ihN =>
    intro f h1 sub w ign hcard
    cases f with
    | zero => omega
    | succ a =>
      simp only [accreteF]
      refine accreteStep_isSome g lims _ sub N ?_ _ w ign
        (nbrFrontier_nodup g sub ign)
        (fun x hx => ⟨(nbrFrontier_mem g sub ign x hx).1, (nbrFrontier_mem g sub ign x hx).2.1⟩)
        hcard
      intro sub2 w2 ign2 hlt
      exact ihN _ hlt a (by omega) sub2 w2 ign2 le_rfl

/-- Claim C9.  `accrete` terminates: the recursion depth is bounded by the
number of not-yet-ignored nodes of the finite graph (each recursive call
strictly grows the ignore set inside the node set), so any fuel beyond
that bound yields the same result, namely the value `accrete` returns. -/
theorem accrete_terminates (g : Graph) (lims : ℚ × ℚ) (sub : Finset ℕ) (w : ℚ)
    (ign : Finset ℕ) (fuel : ℕ) (h : (g.nodes \ ign).card < fuel) :
    accreteF g lims fuel sub w ign = some (accrete g sub w ign lims) := by
  have h1 : accreteF g lims fuel sub w ign
      = accreteF g lims ((g.nodes \ ign).card + 1) sub w ign :=
    accreteF_irrel g lims ((g.nodes \ ign).card) fuel _ h (Nat.lt_succ_self _) sub w ign le_rfl
  obtain ⟨v, hv⟩ := Option.isSome_iff_exists.mp
    (accreteF_someOf g lims ((g.nodes \ ign).card) ((g.nodes \ ign).card + 1)
      (Nat.lt_succ_self _) sub w ign le_rfl)
  rw [accrete, h1, hv]
  simp

/-- Witness for `accrete_terminates` at `G1` with fuel `9`. -/
theorem accrete_terminates_witness :
    (G1.nodes \ ({0} : Finset ℕ)).card < 9
    ∧ accreteF G1 (6, 100) 9 {0} 5 {0} = some (accrete G1 {0} 5 {0} (6, 100)) :=
  ⟨by with_unfolding_all decide,
   accrete_terminates G1 (6, 100) {0} 5 {0} 9 (by with_unfolding_all decide)⟩

/-!
### Accretion search: supersets, growth, connectivity
-/

theorem accreteStep_mem (g : Graph) (lims : ℚ × ℚ)
    (c : Finset ℕ → ℚ → Finset ℕ → Option (List (Finset ℕ))) (sub : Finset ℕ)
    (hc : ∀ sub2 w2 ign2 out, c sub2 w2 ign2 = some out →
      ∀ S ∈ out, sub2 ⊆ S ∧ S ⊆ sub2 ∪ g.nodes) :
    ∀ (l : List ℕ) (w : ℚ) (ign : Finset ℕ) (out : List (Finset ℕ)),
      (∀ x ∈ l, x ∈ g.nodes) →
      accreteStep c g sub lims l w ign = some out →
      ∀ S ∈ out, sub ⊆ S ∧ S ⊆ sub ∪ g.nodes := by
  intro l
  induction l with
  | nil =>
    intro w ign out _ h S hS
    simp only [accreteStep] at h
    obtain rfl := Option.some.inj h
    simp at hS
  | cons nbr rest ih =>
    intro w ign out hmem h S hS
    have hnbr : nbr ∈ g.nodes := hmem nbr (List.mem_cons_self _ _)
    simp only [accreteStep] at h
    by_cases hw : lims.2 < w + g.weight nbr
    · rw [if_pos hw] at h
      exact ih (w + g.weight nbr) (insert nbr ign) out
        (fun x hx => hmem x (List.mem_cons_of_mem _ hx)) h S hS
    · rw [if_neg hw] at h
      cases hcs : c (insert nbr sub) (w + g.weight nbr) (insert nbr ign) with
      | none => rw [hcs] at h; simp at h
      | some cs =>
        cases hrs : accreteStep c g sub lims rest (w + g.weight nbr) ign with
        | none => rw [hcs, hrs] at h; simp at h
        | some rs =>
          rw [hcs, hrs] at h
          obtain rfl := Option.some.inj h
          rcases List.mem_append.mp hS with hS1 | hS2
          · rcases List.mem_append.mp hS1 with hS0 | hScs
            · by_cases hmin : lims.1 ≤ w + g.weight nbr
              · rw [if_pos hmin] at hS0
                obtain rfl := List.mem_singleton.mp hS0
                exact ⟨Finset.subset_insert _ _,
                  Finset.insert_subset_iff.mpr
                    ⟨Finset.mem_union_right _ hnbr, Finset.subset_union_left⟩⟩
              · rw [if_neg hmin] at hS0
                simp at hS0
            · obtain ⟨h1, h2⟩ := hc _ _ _ _ hcs S hScs
              refine ⟨le_trans (Finset.subset_insert _ _) h1, le_trans h2 ?_⟩
              exact Finset.union_subset
                (Finset.insert_subset_iff.mpr
                  ⟨Finset.mem_union_right _ hnbr, Finset.subset_union_left⟩)
                Finset.subset_union_right
          · exact ih (w + g.weight nbr) ign rs
              (fun x hx => hmem x (List.mem_cons_of_mem _ hx)) hrs S hS2

theorem accreteF_mem (g : Graph) (lims : ℚ × ℚ) :
    ∀ (fuel : ℕ) (sub : Finset ℕ) (w : ℚ) (ign : Finset ℕ) (out : List (Finset ℕ)),
      accreteF g lims fuel sub w ign = some out →
      ∀ S ∈ out, sub ⊆ S ∧ S ⊆ sub ∪ g.nodes := by
  intro fuel
  induction fuel with
  | zero => intro sub w ign out h; simp [accreteF] at h
  | succ n ih =>
    intro sub w ign out h S hS
    simp only [accreteF] at h
    refine accreteStep_mem g lims _ sub ?_ _ w ign out ?_ h S hS
    · intro sub2 w2 ign2 out2 h2 S2 hS2
      exact ih sub2 w2 ign2 out2 h2 S2 hS2
    · intro x hx
      exact (nbrFrontier_mem g sub ign x hx).1

theorem accrete_mem (g : Graph) (sub : Finset ℕ) (w : ℚ) (ign : Finset ℕ) (lims : ℚ × ℚ) :
    ∀ S ∈ accrete g sub w ign lims, sub ⊆ S ∧ S ⊆ sub ∪ g.nodes := by
  intro S hS
  rw [accrete] at hS
  cases h : accreteF g lims ((g.nodes \ ign).card + 1) sub w ign with
  | none => rw [h] at hS; simp at hS
  | some out =>
    rw [h] at hS
    exact accreteF_mem g lims _ sub w ign out h S (by simpa using hS)

theorem accreteStep_card (g : Graph) (lims : ℚ × ℚ)
    (c : Finset ℕ → ℚ → Finset ℕ → Option (List (Finset ℕ))) (sub : Finset ℕ)
    (hc : ∀ sub2 w2 ign2 out, sub2 ⊆ ign2 → c sub2 w2 ign2 = some out →
      ∀ S ∈ out, sub2.card < S.card) :
    ∀ (l : List ℕ) (w : ℚ) (ign : Finset ℕ) (out : List (Finset ℕ)),
      l.Nodup → (∀ x ∈ l, x ∉ ign) → sub ⊆ ign →
      accreteStep c g sub lims l w ign = some out →
      ∀ S ∈ out, sub.card < S.card := by
  intro l
  induction l with
  | nil =>
    intro w ign out _ _ _ h S hS
    simp only [accreteStep] at h
    obtain rfl := Option.some.inj h
    simp at hS
  | cons nbr rest ih =>
    intro w ign out hnd hmem hsub h S hS
    obtain ⟨hnb, hrest⟩ := List.nodup_cons.mp hnd
    have hnbr : nbr ∉ ign := hmem nbr (List.mem_cons_self _ _)
    have hns : nbr ∉ sub := fun hin => hnbr (hsub hin)
    simp only [accreteStep] at h
    by_cases hw : lims.2 < w + g.weight nbr
    · rw [if_pos hw] at h
      refine ih (w + g.weight nbr) (insert nbr ign) out hrest ?_
        (le_trans hsub (Finset.subset_insert _ _)) h S hS
      intro x hx hmem2
      rcases Finset.mem_insert.mp hmem2 with h2 | h2
      · exact hnb (h2 ▸ hx)
      · exact hmem x (List.mem_cons_of_mem _ hx) h2
    · rw [if_neg hw] at h
      cases hcs : c (insert nbr sub) (w + g.weight nbr) (insert nbr ign) with
      | none => rw [hcs] at h; simp at h
      | some cs =>
        cases hrs : accreteStep c g sub lims rest (w + g.weight nbr) ign with
        | none => rw [hcs, hrs] at h; simp at h
        | some rs =>
          rw [hcs, hrs] at h
          obtain rfl := Option.some.inj h
          rcases List.mem_append.mp hS with hS1 | hS2
          · rcases List.mem_append.mp hS1 with hS0 | hScs
            · by_cases hmin : lims.1 ≤ w + g.weight nbr
              · rw [if_pos hmin] at hS0
                obtain rfl := List.mem_singleton.mp hS0
                rw [Finset.card_insert_of_not_mem hns]
                omega
              · rw [if_neg hmin] at hS0
                simp at hS0
            · have h1 := hc (insert nbr sub) (w + g.weight nbr) (insert nbr ign) cs
                (Finset.insert_subset_insert _ hsub) hcs S hScs
              exact lt_of_le_of_lt (Finset.card_le_card (Finset.subset_insert _ _)) h1
          · exact ih (w + g.weight nbr) ign rs hrest
              (fun x hx => hmem x (List.mem_cons_of_mem _ hx)) hsub hrs S hS2

theorem accreteF_card (g : Graph) (lims : ℚ × ℚ) :
    ∀ (fuel : ℕ) (sub : Finset ℕ) (w : ℚ) (ign : Finset ℕ) (out : List (Finset ℕ)),
      sub ⊆ ign → accreteF g lims fuel sub w ign = some out →
      ∀ S ∈ out, sub.card < S.card := by
  intro fuel
  induction fuel with
  | zero => intro sub w ign out _ h; simp [accreteF] at h
  | succ n ih =>
    intro sub w ign out hsub h S hS
    simp only [accreteF] at h
    refine accreteStep_card g lims _ sub ?_ _ w ign out
      (nbrFrontier_nodup g sub ign)
      (fun x hx => (nbrFrontier_mem g sub ign x hx).2.1) hsub h S hS
    intro sub2 w2 ign2 out2 hsub2 h2 S2 hS2
    exact ih sub2 w2 ign2 out2 hsub2 h2 S2 hS2

theorem accrete_card (g : Graph) (sub : Finset ℕ) (w : ℚ) (ign : Finset ℕ) (lims : ℚ × ℚ)
    (hsub : sub ⊆ ign) :
    ∀ S ∈ accrete g sub w ign lims, sub.card < S.card := by
  intro S hS
  rw [accrete] at hS
  cases h : accreteF g lims ((g.nodes \ ign).card + 1) sub w ign with
  | none => rw [h] at hS; simp at hS
  | some out =>
    rw [h] at hS
    exact accreteF_card g lims _ sub w ign out hsub h S (by simpa using hS)

theorem connMono (adj : ℕ → ℕ → Bool) (s t : Finset ℕ) (hst : s ⊆ t) (a b : ℕ)
    (h : Relation.ReflTransGen (fun x y => x ∈ s ∧ y ∈ s ∧ adj x y = true) a b) :
    Relation.ReflTransGen (fun x y => x ∈ t ∧ y ∈ t ∧ adj x y = true) a b :=
  Relation.ReflTransGen.mono (fun x y hxy => ⟨hst hxy.1, hst hxy.2.1, hxy.2.2⟩) h

theorem connSingleton (adj : ℕ → ℕ → Bool) (a : ℕ) : Conn adj {a} := by
  intro x hx y hy
  rw [Finset.mem_singleton] at hx hy
  subst hx
  subst hy
  exact Relation.ReflTransGen.refl

theorem connInsert (adj : ℕ → ℕ → Bool) (hsymm : ∀ a b, adj a b = adj b a)
    (s : Finset ℕ) (n a : ℕ) (ha : a ∈ s) (hadj : adj a n = true) (hc : Conn adj s) :
    Conn adj (insert n s) := by
  have lift : ∀ u ∈ s, ∀ v ∈ s,
      Relation.ReflTransGen
        (fun x y => x ∈ insert n s ∧ y ∈ insert n s ∧ adj x y = true) u v :=
    fun u hu v hv => connMono adj s (insert n s) (Finset.subset_insert _ _) u v (hc u hu v hv)
  intro x hx y hy
  rcases Finset.mem_insert.mp hx with rfl | hxs
  · rcases Finset.mem_insert.mp hy with rfl | hys
    · exact Relation.ReflTransGen.refl
    · refine Relation.ReflTransGen.head
        ⟨Finset.mem_insert_self _ _, Finset.mem_insert_of_mem ha, ?_⟩ (lift a ha y hys)
      rw [hsymm x a]
      exact hadj
  · rcases Finset.mem_insert.mp hy with rfl | hys
    · exact Relation.ReflTransGen.tail (lift x hxs a ha)
        ⟨Finset.mem_insert_of_mem ha, Finset.mem_insert_self _ _, hadj⟩
    · exact lift x hxs y hys

theorem accreteStep_conn (g : Graph) (lims : ℚ × ℚ)
    (c : Finset ℕ → ℚ → Finset ℕ → Option (List (Finset ℕ))) (sub : Finset ℕ)
    (hsymm : GraphSymm g)
    (hc : ∀ sub2 w2 ign2 out, Conn g.adj sub2 → c sub2 w2 ign2 = some out →
      ∀ S ∈ out, Conn g.adj S)
    (hconn : Conn g.adj sub) :
    ∀ (l : List ℕ) (w : ℚ) (ign : Finset ℕ) (out : List (Finset ℕ)),
      (∀ x ∈ l, ∃ n ∈ sub, g.adj n x = true) →
      accreteStep c g sub lims l w ign = some out →
      ∀ S ∈ out, Conn g.adj S := by
  intro l
  induction l with
  | nil =>
    intro w ign out _ h S hS
    simp only [accreteStep] at h
    obtain rfl := Option.some.inj h
    simp at hS
  | cons nbr rest ih =>
    intro w ign out hmem h S hS
    obtain ⟨n0, hn0, hadj0⟩ := hmem nbr (List.mem_cons_self _ _)
    have hConnIns : Conn g.adj (insert nbr sub) :=
      connInsert g.adj hsymm sub nbr n0 hn0 hadj0 hconn
    simp only [accreteStep] at h
    by_cases hw : lims.2 < w + g.weight nbr
    · rw [if_pos hw] at h
      exact ih (w + g.weight nbr) (insert nbr ign) out
        (fun x hx => hmem x (List.mem_cons_of_mem _ hx)) h S hS
    · rw [if_neg hw] at h
      cases hcs : c (insert nbr sub) (w + g.weight nbr) (insert nbr ign) with
      | none => rw [hcs] at h; simp at h
      | some cs =>
        cases hrs : accreteStep c g sub lims rest (w + g.weight nbr) ign with
        | none => rw [hcs, hrs] at h; simp at h
        | some rs =>
          rw [hcs, hrs] at h
          obtain rfl := Option.some.inj h
          rcases List.mem_append.mp hS with hS1 | hS2
          · rcases List.mem_append.mp hS1 with hS0 | hScs
            · by_cases hmin : lims.1 ≤ w + g.weight nbr
              · rw [if_pos hmin] at hS0
                obtain rfl := List.mem_singleton.mp hS0
                exact hConnIns
              · rw [if_neg hmin] at hS0
                simp at hS0
            · exact hc _ _ _ _ hConnIns hcs S hScs
          · exact ih (w + g.weight nbr) ign rs
              (fun x hx => hmem x (List.mem_cons_of_mem _ hx)) hrs S hS2

theorem accreteF_conn (g : Graph) (lims : ℚ × ℚ) (hsymm : GraphSymm g) :
    ∀ (fuel : ℕ) (sub : Finset ℕ) (w : ℚ) (ign : Finset ℕ) (out : List (Finset ℕ)),
      Conn g.adj sub → accreteF g lims fuel sub w ign = some out →
      ∀ S ∈ out, Conn g.adj S := by
  intro fuel
  induction fuel with
  | zero => intro sub w ign out _ h; simp [accreteF] at h
  | succ n ih =>
    intro sub w ign out hconn h S hS
    simp only [accreteF] at h
    refine accreteStep_conn g lims _ sub hsymm ?_ hconn _ w ign out ?_ h S hS
    · intro sub2 w2 ign2 out2 hconn2 h2 S2 hS2
      exact ih sub2 w2 ign2 out2 hconn2 h2 S2 hS2
    · intro x hx
      exact (nbrFrontier_mem g sub ign x hx).2.2

theorem accrete_conn (g : Graph) (sub : Finset ℕ) (w : ℚ) (ign : Finset ℕ)
    (lims : ℚ × ℚ) (hsymm : GraphSymm g) (hconn : Conn g.adj sub) :
    ∀ S ∈ accrete g sub w ign lims, Conn g.adj S := by
  intro S hS
  rw [accrete] at hS
  cases h : accreteF g lims ((g.nodes \ ign).card + 1) sub w ign with
  | none => rw [h] at hS; simp at hS
  | some out =>
    rw [h] at hS
    exact accreteF_conn g lims hsymm _ sub w ign out hconn h S (by simpa using hS)

/-!
### Partition enumerator
-/

theorem foldlMax_mem (xs : List ℚ) : ∀ x : ℚ, xs.foldl max x ∈ x :: xs := by
  induction xs with
  | nil => intro x; simp
  | cons y ys ih =>
    intro x
    simp only [List.foldl_cons]
    rcases max_choice x y with h2 | h2 <;> rw [h2]
    · rcases List.mem_cons.mp (ih x) with h3 | h3
      · rw [h3]
        exact List.mem_cons_self _ _
      · exact List.mem_cons_of_mem _ (List.mem_cons_of_mem _ h3)
    · exact List.mem_cons_of_mem _ (ih y)

theorem maxWeight_attained (g : Graph) (h : g.nodes ≠ ∅) :
    ∃ m ∈ g.nodes.sort (· ≤ ·), g.weight m = maxWeight g := by
  obtain ⟨n, hn⟩ := Finset.nonempty_iff_ne_empty.mpr h
  have hsort : n ∈ g.nodes.sort (· ≤ ·) := (Finset.mem_sort _).mpr hn
  cases hl : g.nodes.sort (· ≤ ·) with
  | nil => rw [hl] at hsort; simp at hsort
  | cons a as =>
    have hdef : maxWeight g = (as.map g.weight).foldl max (g.weight a) := by
      rw [maxWeight, hl]
      rfl
    have hmem := foldlMax_mem (as.map g.weight) (g.weight a)
    rw [← hdef] at hmem
    rcases List.mem_cons.mp hmem with h2 | h2
    · exact ⟨a, List.mem_cons_self _ _, h2.symm⟩
    · obtain ⟨m, hm, hw⟩ := List.mem_map.mp h2
      exact ⟨m, List.mem_cons_of_mem _ hm, hw⟩

theorem heaviestNode_mem (g : Graph) (h : g.nodes ≠ ∅) : heaviestNode g ∈ g.nodes := by
  obtain ⟨m, hm, hw⟩ := maxWeight_attained g h
  have hfind : ((g.nodes.sort (· ≤ ·)).find?
      (fun n => decide (g.weight n = maxWeight g))).isSome = true := by
    rw [List.find?_isSome]
    exact ⟨m, hm, by simpa using hw⟩
  obtain ⟨y, hy⟩ := Option.isSome_iff_exists.mp hfind
  have hmemy := List.mem_of_find?_eq_some hy
  rw [heaviestNode, hy]
  exact (Finset.mem_sort _).mp hmemy

theorem unionParts_cons (a : Finset ℕ) (t : List (Finset ℕ)) :
    unionParts (a :: t) = a ∪ unionParts t := rfl

theorem unionParts_append (l1 l2 : List (Finset ℕ)) :
    unionParts (l1 ++ l2) = unionParts l1 ∪ unionParts l2 := by
  induction l1 with
  | nil => simp [unionParts]
  | cons a t ih => simp [unionParts_cons, ih, Finset.union_assoc]

theorem subset_unionParts (p : List (Finset ℕ)) (S : Finset ℕ) (hS : S ∈ p) :
    S ⊆ unionParts p := by
  induction p with
  | nil => simp at hS
  | cons a t ih =>
    rcases List.mem_cons.mp hS with rfl | h2
    · rw [unionParts_cons]
      exact Finset.subset_union_left
    · rw [unionParts_cons]
      exact le_trans (ih h2) Finset.subset_union_right

theorem partStep_parts (g : Graph) (c : Graph → Option (List (List (Finset ℕ))))
    (P : Finset ℕ → Prop)
    (hc : ∀ (S : Finset ℕ) (ps : List (List (Finset ℕ))), c (removeNodes g S) = some ps →
      ∀ p ∈ ps, ∀ T ∈ p, P T) :
    ∀ (l : List (Finset ℕ)) (ps : List (List (Finset ℕ))), (∀ S ∈ l, P S) →
      partStep c g l = some ps → ∀ p ∈ ps, ∀ T ∈ p, P T := by
  intro l
  induction l with
  | nil =>
    intro ps _ h p hp
    simp only [partStep] at h
    obtain rfl := Option.some.inj h
    simp at hp
  | cons S rest ih =>
    intro ps hl h p hp T hT
    simp only [partStep] at h
    by_cases hrem : (removeNodes g S).nodes = ∅
    · rw [if_pos hrem] at h
      cases hr : partStep c g rest with
      | none => rw [hr] at h; simp at h
      | some r =>
        rw [hr] at h
        obtain rfl := Option.some.inj h
        rcases List.mem_cons.mp hp with rfl | hp2
        · obtain rfl := List.mem_singleton.mp hT
          exact hl T (List.mem_cons_self _ _)
        · exact ih r (fun S2 hS2 => hl S2 (List.mem_cons_of_mem _ hS2)) hr p hp2 T hT
    · rw [if_neg hrem] at h
      cases hsubs : c (removeNodes g S) with
      | none => rw [hsubs] at h; simp at h
      | some subs =>
        cases hr : partStep c g rest with
        | none => rw [hsubs, hr] at h; simp at h
        | some r =>
          rw [hsubs, hr] at h
          obtain rfl := Option.some.inj h
          rcases List.mem_append.mp hp with hp1 | hp2
          · obtain ⟨p0, hp0, rfl⟩ := List.mem_map.mp hp1
            rcases List.mem_append.mp hT with hT1 | hT2
            · exact hc S subs hsubs p0 hp0 T hT1
            · obtain rfl := List.mem_singleton.mp hT2
              exact hl T (List.mem_cons_self _ _)
          · exact ih r (fun S2 hS2 => hl S2 (List.mem_cons_of_mem _ hS2)) hr p hp2 T hT

theorem allPartitionsF_parts (lims : ℚ × ℚ) (P : Finset ℕ → Prop) (GP : Graph → Prop)
    (hGP : ∀ (g : Graph) (S : Finset ℕ), GP g → GP (removeNodes g S))
    (hacc : ∀ g : Graph, GP g → g.nodes ≠ ∅ →
      ∀ S ∈ accrete g {heaviestNode g} (g.weight (heaviestNode g)) {heaviestNode g} lims,
        P S) :
    ∀ (fuel : ℕ) (g : Graph) (ps : List (List (Finset ℕ))), GP g →
      allPartitionsF lims fuel g = some ps → ∀ p ∈ ps, ∀ T ∈ p, P T := by
  intro fuel
  induction fuel with
  | zero => intro g ps _ h; simp [allPartitionsF] at h
  | succ n ih =>
    intro g ps hg h p hp T hT
    simp only [allPartitionsF] at h
    by_cases hne : g.nodes = ∅
    · rw [if_pos hne] at h; simp at h
    · rw [if_neg hne] at h
      refine partStep_parts g _ P ?_ _ ps ?_ h p hp T hT
      · intro S ps2 h2 p2 hp2 T2 hT2
        exact ih (removeNodes g S) ps2 (hGP g S hg) h2 p2 hp2 T2 hT2
      · exact hacc g hg hne

theorem partStep_cover (g : Graph) (c : Graph → Option (List (List (Finset ℕ))))
    (hc : ∀ (S : Finset ℕ) (ps : List (List (Finset ℕ))), c (removeNodes g S) = some ps →
      ∀ p ∈ ps, List.Pairwise (fun a b => Disjoint a b) p ∧ unionParts p = g.nodes \ S) :
    ∀ (l : List (Finset ℕ)) (ps : List (List (Finset ℕ))), (∀ S ∈ l, S ⊆ g.nodes) →
      partStep c g l = some ps →
      ∀ p ∈ ps, List.Pairwise (fun a b => Disjoint a b) p ∧ unionParts p = g.nodes := by
  intro l
  induction l with
  | nil =>
    intro ps _ h p hp
    simp only [partStep] at h
    obtain rfl := Option.some.inj h
    simp at hp
  | cons S rest ih =>
    intro ps hl h p hp
    have hSsub : S ⊆ g.nodes := hl S (List.mem_cons_self _ _)
    simp only [partStep] at h
    by_cases hrem : (removeNodes g S).nodes = ∅
    · rw [if_pos hrem] at h
      cases hr : partStep c g rest with
      | none => rw [hr] at h; simp at h
      | some r =>
        rw [hr] at h
        obtain rfl := Option.some.inj h
        rcases List.mem_cons.mp hp with rfl | hp2
        · have hS : S = g.nodes := by
            have h0 : g.nodes \ S = ∅ := hrem
            exact Finset.Subset.antisymm hSsub (Finset.sdiff_eq_empty_iff_subset.mp h0)
          refine ⟨List.pairwise_singleton _ _, ?_⟩
          rw [unionParts_cons]
          simp [unionParts, hS]
        · exact ih r (fun S2 hS2 => hl S2 (List.mem_cons_of_mem _ hS2)) hr p hp2
    · rw [if_neg hrem] at h
      cases hsubs : c (removeNodes g S) with
      | none => rw [hsubs] at h; simp at h
      | some subs =>
        cases hr : partStep c g rest with
        | none => rw [hsubs, hr] at h; simp at h
        | some r =>
          rw [hsubs, hr] at h
          obtain rfl := Option.some.inj h
          rcases List.mem_append.mp hp with hp1 | hp2
          · obtain ⟨p0, hp0, rfl⟩ := List.mem_map.mp hp1
            obtain ⟨hpw, hun⟩ := hc S subs hsubs p0 hp0
            constructor
            · rw [List.pairwise_append]
              refine ⟨hpw, List.pairwise_singleton _ _, ?_⟩
              intro a ha b hb
              obtain rfl := List.mem_singleton.mp hb
              have hasub : a ⊆ g.nodes \ b := hun ▸ subset_unionParts p0 a ha
              rw [Finset.disjoint_left]
              intro x hx hxS
              exact (Finset.mem_sdiff.mp (hasub hx)).2 hxS
            · have hsingle : unionParts [S] = S := by simp [unionParts]
              rw [unionParts_append, hun, hsingle]
              exact Finset.sdiff_union_of_subset hSsub
          · exact ih r (fun S2 hS2 => hl S2 (List.mem_cons_of_mem _ hS2)) hr p hp2

theorem allPartitionsF_cover (lims : ℚ × ℚ) :
    ∀ (fuel : ℕ) (g : Graph) (ps : List (List (Finset ℕ))),
      allPartitionsF lims fuel g = some ps →
      ∀ p ∈ ps, List.Pairwise (fun a b => Disjoint a b) p ∧ unionParts p = g.nodes := by
  intro fuel
  induction fuel with
  | zero => intro g ps h; simp [allPartitionsF] at h
  | succ n ih =>
    intro g ps h p hp
    simp only [allPartitionsF] at h
    by_cases hne : g.nodes = ∅
    · rw [if_pos hne] at h; simp at h
    · rw [if_neg hne] at h
      refine partStep_cover g _ ?_ _ ps ?_ h p hp
      · intro S ps2 h2 p2 hp2
        exact ih (removeNodes g S) ps2 h2 p2 hp2
      · intro S hS
        have hmem :=
          (accrete_mem g {heaviestNode g} (g.weight (heaviestNode g)) {heaviestNode g}
            lims S hS).2
        refine le_trans hmem (Finset.union_subset ?_ (le_refl _))
        exact Finset.singleton_subset_iff.mpr (heaviestNode_mem g hne)

/-!
### Claim theorems: invariants of the enumerator
-/

theorem anyEdgeSymm (es : List (ℕ × ℕ)) (a b : ℕ) :
    es.any (fun e => (e.1 == a && e.2 == b) || (e.1 == b && e.2 == a))
      = es.any (fun e => (e.1 == b && e.2 == a) || (e.1 == a && e.2 == b)) := by
  induction es with
  | nil => rfl
  | cons e t ih =>
    simp only [List.any_cons, ih]
    cases h1 : (e.1 == a && e.2 == b) <;> cases h2 : (e.1 == b && e.2 == a) <;>
      simp [h1, h2]

theorem mkGraphSymm (ns : Finset ℕ) (es : List (ℕ × ℕ)) (w : ℕ → ℚ) :
    GraphSymm (mkGraph ns es w) :=
  fun a b => anyEdgeSymm es a b

/-- Claim C4.  Every partition returned by `all_partitions` consists of
pairwise-disjoint subgraphs whose union is exactly the node set of the
input graph. -/
theorem allPartitionsDisjointCover (g : Graph) (lims : ℚ × ℚ)
    (ps : List (List (Finset ℕ))) (p : List (Finset ℕ))
    (h : allPartitions g lims = some ps) (hp : p ∈ ps) :
    List.Pairwise (fun a b => Disjoint a b) p ∧ unionParts p = g.nodes :=
  allPartitionsF_cover lims _ g ps h p hp

/-- Witness for `allPartitionsDisjointCover` on the two-node graph `G2`. -/
theorem allPartitionsDisjointCoverWitness :
    allPartitions G2 (0, 10) = some [[{0, 1}]]
    ∧ (List.Pairwise (fun a b => Disjoint a b) [({0, 1} : Finset ℕ)]
        ∧ unionParts [{0, 1}] = G2.nodes) := by
  have h : allPartitions G2 (0, 10) = some [[{0, 1}]] :=
    optEqSome _ [] _ (by with_unfolding_all decide) (by with_unfolding_all decide)
  exact ⟨h, allPartitionsDisjointCover G2 (0, 10) [[{0, 1}]] [{0, 1}] h (by simp)⟩

/-- Claim C5.  For a symmetric (undirected) graph: every set returned by
`accrete` from a seed inducing a connected subgraph is a superset of the
seed inducing a connected subgraph (only graph-adjacent nodes are ever
added), and consequently every subgraph of every partition returned by
`all_partitions` induces a connected subgraph of the original graph. -/
theorem accreteConnected (g : Graph) (lims : ℚ × ℚ) (hsymm : GraphSymm g) :
    (∀ (sub : Finset ℕ) (w : ℚ) (ign : Finset ℕ), Conn g.adj sub →
      ∀ S ∈ accrete g sub w ign lims, sub ⊆ S ∧ Conn g.adj S)
    ∧ (∀ ps, allPartitions g lims = some ps → ∀ p ∈ ps, ∀ S ∈ p, Conn g.adj S) := by
  constructor
  · intro sub w ign hconn S hS
    exact ⟨(accrete_mem g sub w ign lims S hS).1,
      accrete_conn g sub w ign lims hsymm hconn S hS⟩
  · intro ps hps p hp S hS
    refine allPartitionsF_parts lims (Conn g.adj) (fun g2 => g2.adj = g.adj) ?_ ?_ _ g ps
      rfl hps p hp S hS
    · intro g2 S2 h2
      exact h2
    · intro g2 hadj hne S2 hS2
      have hsymm2 : GraphSymm g2 := by
        intro a b
        rw [hadj]
        exact hsymm a b
      have hc := accrete_conn g2 {heaviestNode g2} (g2.weight (heaviestNode g2))
        {heaviestNode g2} lims hsymm2 (connSingleton g2.adj (heaviestNode g2)) S2 hS2
      exact hadj ▸ hc

/-- Witness for `accreteConnected` on `G2`: from the connected seed `{0}`,
`accrete` returns `{0, 1}`, a superset of the seed inducing a connected
subgraph. -/
theorem accreteConnectedWitness :
    ({0} : Finset ℕ) ⊆ ({0, 1} : Finset ℕ) ∧ Conn G2.adj {0, 1} :=
  (accreteConnected G2 (0, 10) (mkGraphSymm {0, 1} [(0, 1)] (fun _ => 1))).1
    {0} 1 {0} (connSingleton G2.adj 0) {0, 1} (by with_unfolding_all decide)

/-- Claim C10.  Every subgraph of every partition returned by
`all_partitions` has at least two nodes: `accrete` only emits candidates
that extend the pivot seed by at least one neighbour, so the pivot's
singleton is never a district, even when its own weight is within
limits. -/
theorem allPartitionsPartsCardTwo (g : Graph) (lims : ℚ × ℚ)
    (ps : List (List (Finset ℕ))) (p : List (Finset ℕ)) (S : Finset ℕ)
    (h : allPartitions g lims = some ps) (hp : p ∈ ps) (hS : S ∈ p) : 2 ≤ S.card := by
  refine allPartitionsF_parts lims (fun T => 2 ≤ T.card) (fun _ => True)
    (fun _ _ _ => trivial) ?_ _ g ps trivial h p hp S hS
  intro g2 _ hne S2 hS2
  have hlt := accrete_card g2 {heaviestNode g2} (g2.weight (heaviestNode g2))
    {heaviestNode g2} lims (Finset.Subset.refl _) S2 hS2
  simpa using hlt

/-- Witness for `allPartitionsPartsCardTwo` on `G2`. -/
theorem allPartitionsPartsCardTwoWitness :
    allPartitions G2 (0, 10) = some [[{0, 1}]] ∧ 2 ≤ ({0, 1} : Finset ℕ).card := by
  have h : allPartitions G2 (0, 10) = some [[{0, 1}]] :=
    optEqSome _ [] _ (by with_unfolding_all decide) (by with_unfolding_all decide)
  exact ⟨h, allPartitionsPartsCardTwo G2 (0, 10) [[{0, 1}]] [{0, 1}] {0, 1} h
    (by simp) (by simp)⟩

/-- Witness for `allPartitionsEmptyNone` (the amended C7): the empty graph
makes `all_partitions` fail. -/
theorem allPartitionsEmptyNoneWitness :
    Gempty.nodes = ∅ ∧ allPartitions Gempty (1, 2) = none :=
  ⟨by with_unfolding_all decide,
   allPartitionsEmptyNone Gempty (by with_unfolding_all decide) (1, 2)⟩

/-- Witness for `calcLimitsNoChecks`: a successful run with
`num_parts = 2`, `max_ratio = 3` and a failing run with `num_parts = 0`. -/
theorem calcLimitsNoChecksWitness :
    calcLimits G0 2 3 = .ok (totalWeight G0 / ((2 : ℤ) : ℚ) / 3,
      totalWeight G0 / ((2 : ℤ) : ℚ) * 3)
    ∧ calcLimits G0 0 3 = .error PyErr.zeroDivision :=
  ⟨(calcLimitsNoChecks G0 2 3).1 (by norm_num) (by norm_num),
   (calcLimitsNoChecks G0 0 3).2 (Or.inl rfl)⟩

/-- Witness for `calcLimits_band` at `G0`, `num_parts = 1`,
`max_ratio = 2`. -/
theorem calcLimits_band_witness :
    (∀ n ∈ G0.nodes, 0 ≤ G0.weight n)
    ∧ calcLimits G0 1 2 = .ok (1 / 2, 2)
    ∧ ((1 / 2 : ℚ) ≤ totalWeight G0 / ((1 : ℤ) : ℚ)
        ∧ totalWeight G0 / ((1 : ℤ) : ℚ) ≤ 2 ∧ (1 / 2 : ℚ) * 2 ^ 2 = 2) := by
  have h4 : calcLimits G0 1 2 = .ok (1 / 2, 2) := by with_unfolding_all rfl
  exact ⟨by with_unfolding_all decide, h4,
    calcLimits_band G0 1 2 (1 / 2) 2 (by with_unfolding_all decide) (le_refl _)
      (by norm_num) h4⟩
